import Mathlib

/-!
Shallow embedding of the ore-cli-v2 mining/submission pipeline
(src/mine.rs, src/open.rs, src/send_and_confirm_bundle.rs) and proofs of
the specified properties.  Machine integers are modelled as Nat/Int with
explicit saturation/wrap where the source uses saturating or casting
operations.
-/

namespace OreCli

/-- Size of the u64 nonce space, 2^64. -/
def U64MOD : Nat := 2 ^ 64

/-- u64::MAX. -/
def U64MAX : Nat := 2 ^ 64 - 1

/-- i64::MIN as a mathematical integer. -/
def I64MIN : Int := -(2 ^ 63)

/-- i64::MAX as a mathematical integer. -/
def I64MAX : Int := 2 ^ 63 - 1

/-- i64::saturating_add. -/
def satAddI64 (a b : Int) : Int := max I64MIN (min I64MAX (a + b))

/-- i64::saturating_sub. -/
def satSubI64 (a b : Int) : Int := max I64MIN (min I64MAX (a - b))

/-- The Rust cast `(x : u64) as i64` (wrap modulo 2^64 into the signed range). -/
def u64AsI64 (n : Nat) : Int := if n < 2 ^ 63 then (n : Int) else (n : Int) - 2 ^ 64

/-- Per-participant on-ledger proof state (ore_api::state::Proof), the
fields read by this client. -/
structure Proof where
  balance : Nat
  challenge : List Nat
  last_hash_at : Int
  deriving Repr, DecidableEq

/-- Miner::get_cutoff (src/mine.rs lines 269-277):
`proof.last_hash_at.saturating_add(60).saturating_sub(buffer_time as i64)
 .saturating_sub(clock.unix_timestamp).max(0) as u64`.
The ledger clock read is passed in as `now`. -/
def get_cutoff (proof : Proof) (buffer_time : Nat) (now : Int) : Nat :=
  (max 0 (satSubI64 (satSubI64 (satAddI64 proof.last_hash_at 60)
    (u64AsI64 buffer_time)) now)).toNat

/-- C2 counterexample: with `last_hash_at = 100`, `now = 0` and
`buffer_time = u64::MAX`, the cast `buffer_time as i64` wraps to `-1`, so
`get_cutoff` returns `161`, not `max 0 (100 + 60 - (2^64 - 1) - 0) = 0`
as the claim states. -/
theorem C2_counterexample :
    get_cutoff ⟨0, [], 100⟩ (2 ^ 64 - 1) 0 ≠
      (max 0 ((100 : Int) + 60 - ((2 : Int) ^ 64 - 1) - 0)).toNat := by
  simp only [get_cutoff, satSubI64, satAddI64, u64AsI64, I64MIN, I64MAX]
  rw [if_neg (by norm_num)]
  norm_num [max_def, min_def]

/-- C2 (amended): for every proof record, buffer value `≤ i64::MAX`, and
ledger clock reading in i64 range, `get_cutoff` returns 0 whenever
`now ≥ last_hash_at + 60 - buffer`; and it returns exactly
`max 0 (last_hash_at + 60 - buffer - now)` whenever the intermediate
values of that computation stay inside the i64 range (so that no
saturation occurs). -/
theorem C2_get_cutoff_amended (p : Proof) (buffer_time : Nat) (now : Int)
    (hb : buffer_time ≤ 2 ^ 63 - 1)
    (hl1 : I64MIN ≤ p.last_hash_at) (hl2 : p.last_hash_at ≤ I64MAX)
    (hn1 : I64MIN ≤ now) (hn2 : now ≤ I64MAX) :
    (p.last_hash_at + 60 - buffer_time ≤ now → get_cutoff p buffer_time now = 0) ∧
    ((I64MIN ≤ p.last_hash_at + 60 ∧ p.last_hash_at + 60 ≤ I64MAX ∧
      I64MIN ≤ p.last_hash_at + 60 - buffer_time ∧
      p.last_hash_at + 60 - buffer_time ≤ I64MAX ∧
      I64MIN ≤ p.last_hash_at + 60 - buffer_time - now ∧
      p.last_hash_at + 60 - buffer_time - now ≤ I64MAX) →
      get_cutoff p buffer_time now =
        (max 0 (p.last_hash_at + 60 - buffer_time - now)).toNat) := by
  have hb2 : buffer_time < 2 ^ 63 := by omega
  constructor
  · intro h
    simp only [get_cutoff, satSubI64, satAddI64, u64AsI64, I64MIN, I64MAX, if_pos hb2] at *
    omega
  · rintro ⟨h1, h2, h3, h4, h5, h6⟩
    simp only [get_cutoff, satSubI64, satAddI64, u64AsI64, I64MIN, I64MAX, if_pos hb2] at *
    omega

/-- Witness for C2_get_cutoff_amended at a concrete input. -/
theorem C2_get_cutoff_amended_witness :
    get_cutoff ⟨0, [], 100⟩ 5 200 = 0 :=
  (C2_get_cutoff_amended ⟨0, [], 100⟩ 5 200 (by norm_num)
    (by norm_num [I64MIN]) (by norm_num [I64MAX])
    (by norm_num [I64MIN]) (by norm_num [I64MAX])).1 (by norm_num)

/-! ## Hash search engine (src/mine.rs, find_hash_par lines 161-245) -/

/-- drillx::Hash — a digest `d` and display hash `h`, byte arrays. -/
structure DHash where
  d : List Nat
  h : List Nat
  deriving Repr, DecidableEq

/-- Hash::default(): all-zero bytes. -/
def DHash.default : DHash := ⟨List.replicate 16 0, List.replicate 32 0⟩

/-- The (nonce, difficulty, hash) triple returned by a worker thread
that completed (whose join succeeded). -/
structure WorkerResult where
  nonce : Nat
  difficulty : Nat
  hash : DHash
  deriving Repr, DecidableEq

/-- The mutable (best_nonce, best_difficulty, best_hash) state of the
join-reduction loop. -/
structure Best where
  nonce : Nat
  difficulty : Nat
  hash : DHash
  deriving Repr, DecidableEq

/-- One iteration of the join loop (src/mine.rs lines 227-235):
`if difficulty > best_difficulty { replace }`. -/
def joinStep (acc : Best) (r : WorkerResult) : Best :=
  if r.difficulty > acc.difficulty then ⟨r.nonce, r.difficulty, r.hash⟩ else acc

/-- The reduction of the results of all completed workers to the global best,
starting from `best_nonce = 0`, `best_difficulty = 0`,
`best_hash = Hash::default()` (src/mine.rs lines 224-235). -/
def joinReduce (results : List WorkerResult) : Best :=
  results.foldl joinStep ⟨0, 0, DHash.default⟩

/-- u64::to_le_bytes. -/
def toLeBytes8 (n : Nat) : List Nat :=
  (List.range 8).map (fun i => n / 256 ^ i % 256)

/-- drillx::Solution: digest plus little-endian nonce bytes. -/
structure Solution where
  d : List Nat
  n : List Nat
  deriving Repr, DecidableEq

/-- Solution::new. -/
def Solution.new (d : List Nat) (n : List Nat) : Solution := ⟨d, n⟩

/-- Function find_hash_par, modelled at the join-reduction stage: given the
results of the workers whose join succeeded, it returns
`Solution::new(best_hash.d, best_nonce.to_le_bytes())`
(src/mine.rs line 244). -/
def find_hash_par (results : List WorkerResult) : Solution :=
  Solution.new (joinReduce results).hash.d (toLeBytes8 (joinReduce results).nonce)

lemma foldl_joinStep_difficulty (l : List WorkerResult) (acc : Best) :
    acc.difficulty ≤ (List.foldl joinStep acc l).difficulty ∧
    ∀ r ∈ l, r.difficulty ≤ (List.foldl joinStep acc l).difficulty := by
  induction l generalizing acc with
  | nil => exact ⟨le_refl _, by simp⟩
  | cons x xs ih =>
    have hstep : acc.difficulty ≤ (joinStep acc x).difficulty ∧
        x.difficulty ≤ (joinStep acc x).difficulty := by
      simp only [joinStep]
      split
      next hgt => exact ⟨Nat.le_of_lt hgt, Nat.le_refl _⟩
      next hng => exact ⟨Nat.le_refl _, Nat.le_of_not_lt hng⟩
    have h := ih (joinStep acc x)
    refine ⟨le_trans hstep.1 h.1, ?_⟩
    intro r hr
    rcases List.mem_cons.mp hr with h1 | h1
    · subst h1; exact le_trans hstep.2 h.1
    · exact h.2 r h1

lemma foldl_joinStep_provenance (l : List WorkerResult) (acc : Best) :
    List.foldl joinStep acc l = acc ∨
    ∃ r ∈ l, List.foldl joinStep acc l = ⟨r.nonce, r.difficulty, r.hash⟩ := by
  induction l generalizing acc with
  | nil => exact Or.inl rfl
  | cons x xs ih =>
    rw [List.foldl_cons]
    rcases ih (joinStep acc x) with h | ⟨r, hr, h⟩
    · rw [h]
      simp only [joinStep]
      split
      · exact Or.inr ⟨x, List.mem_cons_self x xs, rfl⟩
      · exact Or.inl rfl
    · exact Or.inr ⟨r, List.mem_cons_of_mem x hr, h⟩

/-- C1: the solution returned by find_hash_par is the reduction of the
results of the completed workers by maximum difficulty: its difficulty is ≥
the locally-best difficulty of every worker that completed, and the
returned Solution is built from the hash digest and nonce of the global best,
where the global best is the initial default or one of the worker
results. -/
theorem C1_find_hash_par_global_best (results : List WorkerResult)
    (r : WorkerResult) (hr : r ∈ results) :
    r.difficulty ≤ (joinReduce results).difficulty ∧
    find_hash_par results =
      Solution.new (joinReduce results).hash.d (toLeBytes8 (joinReduce results).nonce) ∧
    (joinReduce results = ⟨0, 0, DHash.default⟩ ∨
      ∃ w ∈ results, joinReduce results = ⟨w.nonce, w.difficulty, w.hash⟩) :=
  ⟨(foldl_joinStep_difficulty results _).2 r hr, rfl,
    foldl_joinStep_provenance results _⟩

/-- Two concrete completed-worker results used as witnesses. -/
def sampleResults : List WorkerResult :=
  [⟨5, 3, ⟨[1], [2]⟩⟩, ⟨7, 9, ⟨[3], [4]⟩⟩]

/-- Witness for C1_find_hash_par_global_best at a concrete input. -/
theorem C1_find_hash_par_global_best_witness :
    (⟨5, 3, ⟨[1], [2]⟩⟩ : WorkerResult).difficulty ≤ (joinReduce sampleResults).difficulty ∧
    find_hash_par sampleResults =
      Solution.new (joinReduce sampleResults).hash.d
        (toLeBytes8 (joinReduce sampleResults).nonce) ∧
    (joinReduce sampleResults = ⟨0, 0, DHash.default⟩ ∨
      ∃ w ∈ sampleResults, joinReduce sampleResults = ⟨w.nonce, w.difficulty, w.hash⟩) :=
  C1_find_hash_par_global_best sampleResults ⟨5, 3, ⟨[1], [2]⟩⟩ (by simp [sampleResults])

/-- C10: find_hash_par is total over worker outcomes (it is a function
into Solution): on the empty result list (every join failed) it returns
the Solution built from the all-zero default hash with nonce 0, the
global best difficulty being 0; and a result whose difficulty merely
equals the current global best never replaces it. -/
theorem C10_find_hash_par_total_default_ties :
    find_hash_par [] = Solution.new (List.replicate 16 0) (toLeBytes8 0) ∧
    joinReduce [] = ⟨0, 0, DHash.default⟩ ∧
    ∀ (results : List WorkerResult) (r : WorkerResult),
      r.difficulty = (joinReduce results).difficulty →
      joinReduce (results ++ [r]) = joinReduce results := by
  refine ⟨rfl, rfl, ?_⟩
  intro results r h
  rw [joinReduce] at h
  simp only [joinReduce, List.foldl_append, List.foldl_cons, List.foldl_nil, joinStep]
  rw [if_neg]
  omega

/-- Witness for C10_find_hash_par_total_default_ties: a tied result
(difficulty 9, equal to the running best) does not change the
reduction. -/
theorem C10_find_hash_par_total_default_ties_witness :
    joinReduce (sampleResults ++ [⟨100, 9, ⟨[9], [9]⟩⟩]) = joinReduce sampleResults :=
  C10_find_hash_par_total_default_ties.2.2 sampleResults ⟨100, 9, ⟨[9], [9]⟩⟩ (by decide)

/-! ## Nonce-space partition (src/mine.rs line 178) -/

/-- u64::saturating_mul. -/
def satMulU64 (a b : Nat) : Nat := min U64MAX (a * b)

/-- The starting nonce of worker i:
`u64::MAX.saturating_div(threads).saturating_mul(i)`. -/
def startNonce (threads i : Nat) : Nat := satMulU64 (U64MAX / threads) i

/-- The implied scan range of worker i:
`[i * (MAX/threads), (i+1) * (MAX/threads))`. -/
def inWorkerRange (threads i n : Nat) : Prop :=
  U64MAX / threads * i ≤ n ∧ n < U64MAX / threads * (i + 1)

/-- C8: for every thread count `1 ≤ t ≤ u64::MAX`, the starting
nonce of worker i is `i * (u64::MAX / t)`; the implied ranges are contiguous
(range i ends exactly where range i+1 starts), pairwise disjoint, and
cover every nonce below `t * (u64::MAX / t)`; the uncovered top of the
2^64 nonce space is exactly the division remainder `u64::MAX % t` plus
the single nonce `u64::MAX` itself, a block smaller than one nonce per
worker. -/
theorem C8_nonce_partition (t : Nat) (h1 : 1 ≤ t) (h2 : t ≤ U64MAX) :
    (∀ i, i < t → startNonce t i = i * (U64MAX / t)) ∧
    (∀ i, U64MAX / t * (i + 1) = U64MAX / t * i + U64MAX / t) ∧
    (∀ i j n, i ≠ j → ¬(inWorkerRange t i n ∧ inWorkerRange t j n)) ∧
    (∀ n, n < t * (U64MAX / t) → ∃ i, i < t ∧ inWorkerRange t i n) ∧
    (U64MOD - t * (U64MAX / t) = U64MAX % t + 1 ∧ U64MAX % t < t) := by
  have ht : 0 < t := h1
  have hq : 0 < U64MAX / t := Nat.div_pos h2 ht
  refine ⟨?_, ?_, ?_, ?_, ?_, Nat.mod_lt _ ht⟩
  · intro i hi
    have hle : U64MAX / t * i ≤ U64MAX := by
      calc U64MAX / t * i ≤ U64MAX / t * t := Nat.mul_le_mul_left _ (by omega)
        _ ≤ U64MAX := by rw [Nat.mul_comm]; exact Nat.mul_div_le _ _
    unfold startNonce satMulU64
    rw [min_eq_right hle, Nat.mul_comm]
  · intro i
    exact Nat.mul_succ _ _
  · rintro i j n hij ⟨⟨hi1, hi2⟩, hj1, hj2⟩
    rcases Nat.lt_or_ge i j with hlt | hge
    · have hm : U64MAX / t * (i + 1) ≤ U64MAX / t * j := Nat.mul_le_mul_left _ hlt
      omega
    · have hlt2 : j + 1 ≤ i := by omega
      have hm : U64MAX / t * (j + 1) ≤ U64MAX / t * i := Nat.mul_le_mul_left _ hlt2
      omega
  · intro n hn
    refine ⟨n / (U64MAX / t), (Nat.div_lt_iff_lt_mul hq).mpr hn, ?_, ?_⟩
    · exact Nat.mul_div_le n _
    · have h3 := Nat.div_add_mod n (U64MAX / t)
      have h4 := Nat.mod_lt n hq
      rw [Nat.mul_succ]
      omega
  · have h3 := Nat.div_add_mod U64MAX t
    have h5 : U64MOD = U64MAX + 1 := by norm_num [U64MOD, U64MAX]
    omega

/-- Witness for C8_nonce_partition at thread count 3, worker 1. -/
theorem C8_nonce_partition_witness :
    startNonce 3 1 = 1 * (U64MAX / 3) :=
  (C8_nonce_partition 3 (by norm_num) (by norm_num [U64MAX])).1 1 (by norm_num)

/-! ## Reward shard selector (src/mine.rs, find_highest_reward_bus lines 147-159) -/

/-- ore_api::consts::BUS_COUNT. -/
def BUS_COUNT : Nat := 8

/-- The fixed, opaque shard account addresses (BUS_ADDRESSES), modelled
as distinct abstract pubkey values. -/
def BUS_ADDRESSES : List Nat := (List.range BUS_COUNT).map (fun i => 1000 + i)

/-- ore_api::state::Bus, the fields read by this client. -/
structure Bus where
  id : Nat
  rewards : Nat
  deriving Repr, DecidableEq

/-- One step of the Rust `Iterator::max_by_key` fold on `rewards` (on equal
keys the later element wins). -/
def maxByRewardsStep (acc : Option Bus) (b : Bus) : Option Bus :=
  match acc with
  | none => some b
  | some m => if m.rewards ≤ b.rewards then some b else some m

/-- The fold `buses.into_iter().max_by_key(|bus| bus.rewards)`. -/
def maxByRewards (l : List Bus) : Option Bus := l.foldl maxByRewardsStep none

/-- Function find_highest_reward_bus: the `BUS_COUNT` reads are passed in as
`reads` (None for a failed read); failed reads are dropped
(`filter_map(Result::ok)`), the max-rewards bus is taken, and its
address `BUS_ADDRESSES[id]` returned.  The source unwraps the max (it
panics when every read failed); the model returns an Option. -/
def find_highest_reward_bus (reads : List (Option Bus)) : Option Nat :=
  (maxByRewards (reads.filterMap id)).map (fun b => BUS_ADDRESSES.getD b.id 0)

lemma maxByRewards_foldl_some (l : List Bus) (m : Bus) :
    ∃ b, List.foldl maxByRewardsStep (some m) l = some b ∧
      (b = m ∨ b ∈ l) ∧ m.rewards ≤ b.rewards ∧ ∀ x ∈ l, x.rewards ≤ b.rewards := by
  induction l generalizing m with
  | nil => exact ⟨m, rfl, Or.inl rfl, le_refl _, by simp⟩
  | cons y ys ih =>
    rw [List.foldl_cons]
    simp only [maxByRewardsStep]
    split
    next hle =>
      obtain ⟨b, hb, hmem, hge, hall⟩ := ih y
      refine ⟨b, hb, ?_, le_trans hle hge, ?_⟩
      · rcases hmem with rfl | hm
        · exact Or.inr (List.mem_cons_self b ys)
        · exact Or.inr (List.mem_cons_of_mem y hm)
      · intro x hx
        rcases List.mem_cons.mp hx with rfl | hx2
        · exact hge
        · exact hall x hx2
    next hlt =>
      obtain ⟨b, hb, hmem, hge, hall⟩ := ih m
      refine ⟨b, hb, ?_, hge, ?_⟩
      · rcases hmem with rfl | hm
        · exact Or.inl rfl
        · exact Or.inr (List.mem_cons_of_mem y hm)
      · intro x hx
        rcases List.mem_cons.mp hx with rfl | hx2
        · exact le_trans (Nat.le_of_not_le hlt) hge
        · exact hall x hx2

lemma maxByRewards_spec (l : List Bus) (hne : l ≠ []) :
    ∃ b, maxByRewards l = some b ∧ b ∈ l ∧ ∀ x ∈ l, x.rewards ≤ b.rewards := by
  cases l with
  | nil => exact absurd rfl hne
  | cons y ys =>
    unfold maxByRewards
    rw [List.foldl_cons]
    obtain ⟨b, hb, hmem, hge, hall⟩ := maxByRewards_foldl_some ys y
    refine ⟨b, hb, ?_, ?_⟩
    · rcases hmem with rfl | hm
      · exact List.mem_cons_self b ys
      · exact List.mem_cons_of_mem y hm
    · intro x hx
      rcases List.mem_cons.mp hx with rfl | hx2
      · exact hge
      · exact hall x hx2

/-- The reads of the concrete scenario of C7: shard rewards [10, 75, 40] with
the read of the shard holding 75 failing (remaining shards absent). -/
def sampleBusReads : List (Option Bus) :=
  [some ⟨0, 10⟩, none, some ⟨2, 40⟩, none, none, none, none, none]

/-- C7: find_highest_reward_bus drops failed reads and returns the
address of a shard whose rewards value is maximal among the
successfully read shards; in the concrete scenario with rewards
[10, 75, 40] and the read of the 75-shard failing it returns the address of
the shard holding 40 (index 2). -/
theorem C7_find_highest_reward_bus_max (reads : List (Option Bus))
    (_hlen : reads.length = BUS_COUNT)
    (hne : reads.filterMap id ≠ []) :
    (∃ b, b ∈ reads.filterMap id ∧
      find_highest_reward_bus reads = some (BUS_ADDRESSES.getD b.id 0) ∧
      ∀ x ∈ reads.filterMap id, x.rewards ≤ b.rewards) ∧
    find_highest_reward_bus sampleBusReads = some (BUS_ADDRESSES.getD 2 0) := by
  constructor
  · obtain ⟨b, hb, hmem, hall⟩ := maxByRewards_spec _ hne
    exact ⟨b, hmem, by simp [find_highest_reward_bus, hb], hall⟩
  · rfl

/-- Witness for C7_find_highest_reward_bus_max at the concrete reads. -/
theorem C7_find_highest_reward_bus_max_witness :
    (∃ b, b ∈ sampleBusReads.filterMap id ∧
      find_highest_reward_bus sampleBusReads = some (BUS_ADDRESSES.getD b.id 0) ∧
      ∀ x ∈ sampleBusReads.filterMap id, x.rewards ≤ b.rewards) ∧
    find_highest_reward_bus sampleBusReads = some (BUS_ADDRESSES.getD 2 0) :=
  C7_find_highest_reward_bus_max sampleBusReads (by decide) (by decide)

/-! ## Bundle construction (src/send_and_confirm_bundle.rs lines 307-388) -/

/-- A pubkey paired with its signer flag, as in
solana AccountMeta (the writable flag is irrelevant here). -/
structure AccountMeta where
  pubkey : Nat
  is_signer : Bool
  deriving Repr, DecidableEq

/-- solana Instruction: program id, account metas, data bytes. -/
structure Instruction where
  program_id : Nat
  accounts : List AccountMeta
  data : List Nat
  deriving Repr, DecidableEq

/-- Opaque program ids. -/
def computeBudgetProgramId : Nat := 10

def systemProgramId : Nat := 11

def oreProgramId : Nat := 12

/-- ComputeBudgetInstruction::set_compute_unit_limit (no accounts). -/
def set_compute_unit_limit (units : Nat) : Instruction :=
  ⟨computeBudgetProgramId, [], [2, units]⟩

/-- ComputeBudgetInstruction::set_compute_unit_price (no accounts). -/
def set_compute_unit_price (microLamports : Nat) : Instruction :=
  ⟨computeBudgetProgramId, [], [3, microLamports]⟩

/-- system_instruction::transfer(from, to, lamports); the source
account is a required signer. -/
def transfer (source dest lamports : Nat) : Instruction :=
  ⟨systemProgramId, [⟨source, true⟩, ⟨dest, false⟩], [2, lamports]⟩

/-- The while-loop chunking of the flat instruction list with
`num_ixs_per_tx = 2` (lines 325-338). -/
def chunk2 {α : Type} : List α → List (List α)
  | [] => []
  | [a] => [[a]]
  | a :: b :: rest => [a, b] :: chunk2 rest

lemma chunk2_length {α : Type} : ∀ l : List α, (chunk2 l).length = (l.length + 1) / 2
  | [] => by simp [chunk2]
  | [_] => by simp [chunk2]
  | _ :: _ :: rest => by
    simp only [chunk2, List.length_cons]
    rw [chunk2_length rest]
    omega

lemma chunk2_flatten {α : Type} : ∀ l : List α, (chunk2 l).flatten = l
  | [] => by simp [chunk2]
  | [_] => by simp [chunk2]
  | a :: b :: rest => by
    simp only [chunk2, List.flatten_cons]
    rw [chunk2_flatten rest]
    rfl

lemma chunk2_mem_len {α : Type} :
    ∀ (l : List α) (c : List α), c ∈ chunk2 l → c.length ≤ 2 ∧ c ≠ []
  | [], c, h => by simp [chunk2] at h
  | [a], c, h => by
    simp only [chunk2, List.mem_singleton] at h
    subst h
    exact ⟨by simp, by simp⟩
  | a :: b :: rest, c, h => by
    simp only [chunk2, List.mem_cons] at h
    rcases h with rfl | h
    · exact ⟨by simp, by simp⟩
    · exact chunk2_mem_len rest c h

/-- One built transaction of the bundle: its final instruction list,
the message payer, and the keypair list handed to
VersionedTransaction::try_new. -/
structure BuiltTx where
  instructions : List Instruction
  payer : Nat
  signerKeys : List Nat
  deriving Repr, DecidableEq

/-- Whether any instruction of the list references the fee payer as an
account (lines 347-356). -/
def referencesFeePayer (feePayer : Nat) (ixs : List Instruction) : Bool :=
  ixs.any (fun ix => ix.accounts.any (fun a => a.pubkey == feePayer))

/-- Whether key `k` appears as a required signer among `ixs`
(lines 371-382). -/
def requiredSignerIn (ixs : List Instruction) (k : Nat) : Bool :=
  ixs.any (fun ix => ix.accounts.any (fun a => a.is_signer && a.pubkey == k))

/-- Building one bundle transaction from a chunk (lines 330-387):
append the compute-unit-limit instruction; if the fee payer is
referenced by the resulting list, append the incentive (tip) transfer
and clear the initial `[fee_payer]` keypair list; compile the message
with the fee payer as payer; extend the keypair list with every
participant signer required by the final instruction list. -/
def buildBundleTx (feePayer : Nat) (signers : List Nat) (jitoKey : Nat)
    (tipAmount : Nat) (chunk : List Instruction) : BuiltTx :=
  let withCu := chunk ++ [set_compute_unit_limit 500000]
  let addTip := referencesFeePayer feePayer withCu
  let finalIxs :=
    if addTip then withCu ++ [transfer feePayer jitoKey tipAmount] else withCu
  let feePayerSigners : List Nat := if addTip then [] else [feePayer]
  ⟨finalIxs, feePayer, feePayerSigners ++ signers.filter (requiredSignerIn finalIxs)⟩

/-- The transaction-construction phase of send_and_confirm_bundle. -/
def send_and_confirm_bundle_build (ixs : List Instruction) (feePayer : Nat)
    (signers : List Nat) (jitoKey : Nat) (tipAmount : Nat) : List BuiltTx :=
  (chunk2 ixs).map (buildBundleTx feePayer signers jitoKey tipAmount)

/-- C5: for a flat instruction list of length n ≥ 1, the bundle
submitter produces exactly ceil(n/2) transactions; the chunks are the
original instructions in order, at most 2 per transaction; and every
produced transaction is its chunk followed by one appended
compute-unit-limit instruction (plus, possibly, the tip transfer). -/
theorem C5_bundle_partition (ixs : List Instruction) (feePayer : Nat)
    (signers : List Nat) (jitoKey tipAmount : Nat) (_hn : 1 ≤ ixs.length) :
    (send_and_confirm_bundle_build ixs feePayer signers jitoKey tipAmount).length =
      (ixs.length + 1) / 2 ∧
    (chunk2 ixs).flatten = ixs ∧
    (∀ c ∈ chunk2 ixs, c.length ≤ 2) ∧
    ∀ tx ∈ send_and_confirm_bundle_build ixs feePayer signers jitoKey tipAmount,
      ∃ c ∈ chunk2 ixs,
        tx.instructions = c ++ [set_compute_unit_limit 500000] ∨
        tx.instructions =
          (c ++ [set_compute_unit_limit 500000]) ++ [transfer feePayer jitoKey tipAmount] := by
  refine ⟨?_, chunk2_flatten ixs, fun c hc => (chunk2_mem_len ixs c hc).1, ?_⟩
  · rw [send_and_confirm_bundle_build, List.length_map, chunk2_length]
  · intro tx htx
    rw [send_and_confirm_bundle_build, List.mem_map] at htx
    obtain ⟨c, hc, rfl⟩ := htx
    refine ⟨c, hc, ?_⟩
    simp only [buildBundleTx]
    split
    · exact Or.inr rfl
    · exact Or.inl rfl

/-- Witness for C5_bundle_partition: 8 instructions yield 4
transactions. -/
theorem C5_bundle_partition_witness :
    (send_and_confirm_bundle_build (List.replicate 8 ⟨oreProgramId, [], []⟩) 1 [] 2 5).length =
      (8 + 1) / 2 ∧
    (chunk2 (List.replicate 8 (⟨oreProgramId, [], []⟩ : Instruction))).flatten =
      List.replicate 8 ⟨oreProgramId, [], []⟩ ∧
    (∀ c ∈ chunk2 (List.replicate 8 (⟨oreProgramId, [], []⟩ : Instruction)), c.length ≤ 2) ∧
    ∀ tx ∈ send_and_confirm_bundle_build (List.replicate 8 ⟨oreProgramId, [], []⟩) 1 [] 2 5,
      ∃ c ∈ chunk2 (List.replicate 8 (⟨oreProgramId, [], []⟩ : Instruction)),
        tx.instructions = c ++ [set_compute_unit_limit 500000] ∨
        tx.instructions = (c ++ [set_compute_unit_limit 500000]) ++ [transfer 1 2 5] := by
  have h := C5_bundle_partition (List.replicate 8 ⟨oreProgramId, [], []⟩) 1 [] 2 5 (by simp)
  simpa using h

/-- C6 counterexample: a one-instruction chunk that references the fee
payer (pubkey 1) gets the tip transfer appended, and the fee payer is
then removed from the keypair list of that very transaction — the
transaction carrying the incentive transfer is NOT signed by the fee
payer, contradicting the claim. -/
theorem C6_counterexample :
    transfer 1 2 5 ∈ (buildBundleTx 1 [] 2 5 [⟨oreProgramId, [⟨1, true⟩], []⟩]).instructions ∧
    (buildBundleTx 1 [] 2 5 [⟨oreProgramId, [⟨1, true⟩], []⟩]).signerKeys = [] := by
  decide

/-- C6 (amended): the tip transfer is appended exactly to the
transactions whose instructions reference the fee payer as an account;
the fee payer is the message payer of every transaction, but it appears
in the explicit keypair list exactly for the transactions that do NOT
carry the tip transfer; the participant identities in the keypair list
are exactly those appearing as required signers among the final
instructions of the transaction. -/
theorem C6_bundle_signers_amended (feePayer : Nat) (signers : List Nat)
    (jitoKey tipAmount : Nat) (chunk : List Instruction) :
    (buildBundleTx feePayer signers jitoKey tipAmount chunk).payer = feePayer ∧
    (buildBundleTx feePayer signers jitoKey tipAmount chunk).instructions =
      (if referencesFeePayer feePayer (chunk ++ [set_compute_unit_limit 500000])
       then (chunk ++ [set_compute_unit_limit 500000]) ++ [transfer feePayer jitoKey tipAmount]
       else chunk ++ [set_compute_unit_limit 500000]) ∧
    ∀ s, s ∈ (buildBundleTx feePayer signers jitoKey tipAmount chunk).signerKeys ↔
      ((referencesFeePayer feePayer (chunk ++ [set_compute_unit_limit 500000]) = false ∧
        s = feePayer) ∨
       (s ∈ signers ∧
        requiredSignerIn
          (buildBundleTx feePayer signers jitoKey tipAmount chunk).instructions s = true)) := by
  refine ⟨rfl, ?_, ?_⟩
  · simp only [buildBundleTx]
  · intro s
    simp only [buildBundleTx]
    by_cases h : referencesFeePayer feePayer (chunk ++ [set_compute_unit_limit 500000]) = true
    · simp [h, List.mem_filter]
    · rw [Bool.not_eq_true] at h
      simp [h, List.mem_filter, or_comm, and_comm]

/-! ## Submission retry loops (src/send_and_confirm_bundle.rs) -/

/-- RPC_RETRIES (line 31). -/
def RPC_RETRIES : Nat := 1

/-- GATEWAY_RETRIES (line 32). -/
def GATEWAY_RETRIES : Nat := 4

/-- CONFIRM_RETRIES (line 33). -/
def CONFIRM_RETRIES : Nat := 4

/-- The response of the network to one send call: a transport/RPC error, or
a signature string. -/
inductive SendResp where
  | rpcErr
  | gotSignature (sig : Nat)
  deriving Repr, DecidableEq

/-- The error cases of one send call. -/
inductive SendErr where
  | rpcError
  | mismatchedSignature
  deriving Repr, DecidableEq

/-- send_transaction_with_config (lines 141-206): an RPC error
propagates; a returned signature different from the locally computed
transaction signature `txSig` is the mismatched-signature error
(lines 196-205); otherwise the signature of the transaction is returned. -/
def send_transaction_with_config (txSig : Nat) (resp : SendResp) : Except SendErr Nat :=
  match resp with
  | SendResp.rpcErr => Except.error SendErr.rpcError
  | SendResp.gotSignature s =>
    if s = txSig then Except.ok txSig else Except.error SendErr.mismatchedSignature

/-- The result of a whole submit call. -/
inductive SubmitResult where
  | success (sig : Nat)
  | maxRetries
  deriving Repr, DecidableEq

/-- The retry loop shared (syntactically duplicated) by
send_and_confirm_with_key (lines 227-304) and send_and_confirm_bundle
(lines 394-470): each iteration performs one send; on send success with
skip_confirm, or with confirmation reaching Confirmed/Finalized within
CONFIRM_RETRIES polls (summarised by `landed`), the call succeeds;
otherwise `attempts` is incremented and the call fails with Max retries
once `attempts > GATEWAY_RETRIES`.  Returns (number of send attempts
performed, result); `fuel` only bounds the recursion and is always
sufficient at the entry points. -/
def gatewayLoop (send : Nat → Except SendErr Nat) (landed : Nat → Bool)
    (skipConfirm : Bool) : Nat → Nat → Nat × SubmitResult
  | 0, _ => (0, SubmitResult.maxRetries)
  | fuel + 1, attempts =>
    match send attempts with
    | Except.ok sig =>
      if skipConfirm || landed attempts then
        (1, SubmitResult.success sig)
      else if attempts + 1 > GATEWAY_RETRIES then
        (1, SubmitResult.maxRetries)
      else
        let rest := gatewayLoop send landed skipConfirm fuel (attempts + 1)
        (rest.1 + 1, rest.2)
    | Except.error _ =>
      if attempts + 1 > GATEWAY_RETRIES then
        (1, SubmitResult.maxRetries)
      else
        let rest := gatewayLoop send landed skipConfirm fuel (attempts + 1)
        (rest.1 + 1, rest.2)

/-- Miner::send_and_confirm_with_key, at the level of its retry loop:
`resp k` is the response of the network to the k-th send, `landed k` whether
the k-th confirmation polling reached Confirmed/Finalized. -/
def send_and_confirm_with_key (txSig : Nat) (resp : Nat → SendResp)
    (landed : Nat → Bool) (skipConfirm : Bool) : Nat × SubmitResult :=
  gatewayLoop (fun k => send_transaction_with_config txSig (resp k)) landed
    skipConfirm (GATEWAY_RETRIES + 1) 0

lemma gatewayLoop_all_fail (send : Nat → Except SendErr Nat) (landed : Nat → Bool)
    (skipConfirm : Bool)
    (h : ∀ k, (∃ e, send k = Except.error e) ∨ (skipConfirm = false ∧ landed k = false)) :
    ∀ fuel attempts, attempts + fuel = GATEWAY_RETRIES + 1 → 0 < fuel →
      gatewayLoop send landed skipConfirm fuel attempts = (fuel, SubmitResult.maxRetries) := by
  intro fuel
  induction fuel with
  | zero => intro _ _ hpos; omega
  | succ f ih =>
    intro attempts hsum _
    have hretry :
        (if attempts + 1 > GATEWAY_RETRIES then ((1 : Nat), SubmitResult.maxRetries)
         else
           let rest := gatewayLoop send landed skipConfirm f (attempts + 1)
           (rest.1 + 1, rest.2)) = (f + 1, SubmitResult.maxRetries) := by
      by_cases hb : attempts + 1 > GATEWAY_RETRIES
      · rw [if_pos hb]
        have hf : f = 0 := by simp only [GATEWAY_RETRIES] at *; omega
        rw [hf]
      · rw [if_neg hb]
        have hf : 0 < f := by simp only [GATEWAY_RETRIES] at *; omega
        rw [ih (attempts + 1) (by omega) hf]
    rcases h attempts with ⟨e, he⟩ | ⟨hskip, hland⟩
    · rw [gatewayLoop, he]
      exact hretry
    · subst hskip
      rw [gatewayLoop]
      cases hsend : send attempts with
      | ok sig =>
        rw [hland]
        simpa using hretry
      | error e => exact hretry

/-- C4 counterexample: with the network returning the mismatched
signature 8 for a transaction locally signed with signature 7 on every
attempt, the send call does fail with the mismatched-signature error,
but the submitter retries: it performs all 5 send attempts (not 1) and
ends with Max retries, so the mismatch is NOT immediately fatal for the
call. -/
theorem C4_counterexample :
    send_transaction_with_config 7 (SendResp.gotSignature 8) =
      Except.error SendErr.mismatchedSignature ∧
    send_and_confirm_with_key 7 (fun _ => SendResp.gotSignature 8) (fun _ => false) false =
      (5, SubmitResult.maxRetries) ∧ (5 : Nat) ≠ 1 := by
  refine ⟨rfl, ?_, by norm_num⟩
  rfl

/-- C4 (amended): a returned signature that does not equal the locally
computed signature makes that send call fail with the distinct
mismatched-signature error, but the submitter treats it like any other
failed attempt: it retries with a fresh blockhash up to the
GATEWAY_RETRIES bound (5 total send attempts) instead of aborting
immediately. -/
theorem C4_mismatch_amended (txSig s : Nat) (resp : Nat → SendResp)
    (landed : Nat → Bool) (skip : Bool) (hs : s ≠ txSig)
    (h : ∀ k, resp k = SendResp.gotSignature s) :
    send_transaction_with_config txSig (SendResp.gotSignature s) =
      Except.error SendErr.mismatchedSignature ∧
    send_and_confirm_with_key txSig resp landed skip =
      (GATEWAY_RETRIES + 1, SubmitResult.maxRetries) := by
  have hmis : send_transaction_with_config txSig (SendResp.gotSignature s) =
      Except.error SendErr.mismatchedSignature := by
    simp [send_transaction_with_config, hs]
  refine ⟨hmis, ?_⟩
  exact gatewayLoop_all_fail _ landed skip
    (fun k => Or.inl ⟨SendErr.mismatchedSignature, by rw [h k]; exact hmis⟩)
    (GATEWAY_RETRIES + 1) 0 rfl (by norm_num)

/-- Witness for C4_mismatch_amended at a concrete input. -/
theorem C4_mismatch_amended_witness :
    send_transaction_with_config 7 (SendResp.gotSignature 8) =
      Except.error SendErr.mismatchedSignature ∧
    send_and_confirm_with_key 7 (fun _ => SendResp.gotSignature 8) (fun _ => true) true =
      (GATEWAY_RETRIES + 1, SubmitResult.maxRetries) :=
  C4_mismatch_amended 7 8 (fun _ => SendResp.gotSignature 8) (fun _ => true) true
    (by norm_num) (fun _ => rfl)

/-! ## Account registration gate (src/open.rs, open_all lines 6-27) -/

/-- The proof-account PDA derived from an authority pubkey; the
derivation is opaque, modelled as an injective encoding. -/
def proof_pubkey (authority : Nat) : Nat := authority + 500

/-- ore_api::instruction::open(signer, miner, payer) — an opaque
builder; the signer is a required signer of the instruction. -/
def open_ix (signer : Nat) : Instruction :=
  ⟨oreProgramId, [⟨signer, true⟩, ⟨signer, false⟩, ⟨signer, false⟩], [0]⟩

/-- One registration submission made by open_all: the signer it is for
and the instruction list handed to send_and_confirm_with_key. -/
structure OpenSubmission where
  signer : Nat
  instructions : List Instruction
  deriving Repr, DecidableEq

/-- open_all: for each participant signer, read its proof account
(`readOk pk` tells whether `get_account(pk)` succeeded); if the read
failed, submit `[set_compute_unit_price(priority_fee), open(...)]` via
the transaction submitter; otherwise do nothing for that signer. -/
def open_all (signers : List Nat) (readOk : Nat → Bool) (priority_fee : Nat) :
    List OpenSubmission :=
  signers.filterMap (fun s =>
    if readOk (proof_pubkey s) then none
    else some ⟨s, [set_compute_unit_price priority_fee, open_ix s]⟩)

/-- C9: open_all submits a registration transaction for a participant
if and only if the read of its proof account fails; every submission
carries the compute-unit-price (priority fee) instruction and the open
instruction; and when the proof account of every participant already exists,
open_all submits nothing at all (idempotence: calling it every round is
safe). -/
theorem C9_open_all_idempotent (signers : List Nat) (readOk : Nat → Bool)
    (priority_fee : Nat) :
    (∀ s, (∃ sub ∈ open_all signers readOk priority_fee, sub.signer = s) ↔
      (s ∈ signers ∧ readOk (proof_pubkey s) = false)) ∧
    (∀ sub ∈ open_all signers readOk priority_fee,
      sub.instructions = [set_compute_unit_price priority_fee, open_ix sub.signer]) ∧
    ((∀ s ∈ signers, readOk (proof_pubkey s) = true) →
      open_all signers readOk priority_fee = []) := by
  refine ⟨?_, ?_, ?_⟩
  · intro s
    simp only [open_all, List.mem_filterMap]
    constructor
    · rintro ⟨sub, ⟨a, ha, hfa⟩, hss⟩
      split_ifs at hfa with hr
      simp only [Option.some.injEq] at hfa
      subst hfa
      subst hss
      exact ⟨ha, by simpa using hr⟩
    · rintro ⟨hs, hfalse⟩
      refine ⟨⟨s, [set_compute_unit_price priority_fee, open_ix s]⟩, ⟨s, hs, ?_⟩, rfl⟩
      rw [if_neg (by simp [hfalse])]
  · intro sub hsub
    rw [open_all, List.mem_filterMap] at hsub
    obtain ⟨a, ha, hfa⟩ := hsub
    split_ifs at hfa with hr
    simp only [Option.some.injEq] at hfa
    subst hfa
    rfl
  · intro hall
    rw [open_all, List.filterMap_eq_nil_iff]
    intro a ha
    rw [if_pos (hall a ha)]

/-- Witness for C9_open_all_idempotent: with every proof account
present, nothing is submitted. -/
theorem C9_open_all_idempotent_witness :
    open_all [1, 2] (fun _ => true) 77 = [] :=
  (C9_open_all_idempotent [1, 2] (fun _ => true) 77).2.2 (fun _ _ => rfl)

end OreCli
